import Mathlib

/-!
Verification of the group-indexed stylesheet and its server-extraction /
deduplication protocol, as specified for the styled-components runtime.

The repository snapshot ships only the RSC extraction test suite
(`styled.rsc.test.tsx`); the runtime under test (group id allocator, style
sheet, content hasher and server extraction engine) is absent, so every
definition below is modelled from the specification (`spec.md`), faithful to
its wording, and each such definition says so in its doc comment.
-/

namespace StyledSheet

/-! ### Character classification (spec §4.4, §6)

The address token must contain no whitespace and only characters legal and
unambiguous inside a markup attribute value. -/

/-- Whitespace characters in the markup sense: space, tab, LF, CR, FF. -/
def isWsChar (c : Char) : Bool :=
  c == ' ' || c == '\t' || c == '\n' || c == '\r' || c == '\x0c'

/-- The double-quote character. -/
def quoteChar : Char := Char.ofNat 34

/-- The single-quote character. -/
def aposChar : Char := Char.ofNat 39

/-- Characters that are not legal/unambiguous inside a markup attribute
value: the two quotes, angle brackets and the ampersand. -/
def isMarkupSpecial (c : Char) : Bool :=
  c == quoteChar || c == aposChar || c == '<' || c == '>' || c == '&'

/-- A character is legal in an attribute-value position iff it is neither
whitespace nor one of the markup-special characters. -/
def attrLegal (c : Char) : Bool := !(isWsChar c) && !(isMarkupSpecial c)

/-! ### Content hasher (spec §4.4, §7)

Modelled from the spec: the hasher is a deterministic pure function of a
group's CSS text producing a whitespace-free, attribute-safe token; §7
declares hash collisions "treated as acceptably improbable" and neither
detected nor handled, so the model realises the collision-free idealisation
as an injective escaping encoder of the content, prefixed with `sc-` (the
prefix the test suite filters style-block addresses by). -/

/-- Does this character need escaping in the token encoding? -/
def needsEsc (c : Char) : Bool := isWsChar c || isMarkupSpecial c || c == '%'

/-- Escape code (a plain letter) for each escaped character. -/
def escCode (c : Char) : Char :=
  if c == ' ' then 's'
  else if c == '\t' then 't'
  else if c == '\n' then 'n'
  else if c == '\r' then 'r'
  else if c == '\x0c' then 'f'
  else if c == quoteChar then 'q'
  else if c == aposChar then 'a'
  else if c == '<' then 'l'
  else if c == '>' then 'g'
  else if c == '&' then 'm'
  else 'p'

/-- Inverse of `escCode` on the escaped character set. -/
def unesc (d : Char) : Char :=
  if d == 's' then ' '
  else if d == 't' then '\t'
  else if d == 'n' then '\n'
  else if d == 'r' then '\r'
  else if d == 'f' then '\x0c'
  else if d == 'q' then quoteChar
  else if d == 'a' then aposChar
  else if d == 'l' then '<'
  else if d == 'g' then '>'
  else if d == 'm' then '&'
  else '%'

/-- Encode one character: escaped characters become `%` plus their code. -/
def escChar (c : Char) : List Char := if needsEsc c then ['%', escCode c] else [c]

/-- Encode a character list by concatenating per-character encodings. -/
def encChars : List Char → List Char
  | [] => []
  | c :: rest => escChar c ++ encChars rest

/-- Decoder for `encChars`, used to establish injectivity. -/
def decChars : List Char → List Char
  | [] => []
  | [c] => if c == '%' then [] else [c]
  | c :: d :: rest =>
    if c == '%' then unesc d :: decChars rest else c :: decChars (d :: rest)

/-- Modelled from the spec: §4.4 content-derived address token over a
group's CSS text, with the `sc-` prefix observed by the test suite. -/
def hashTok (css : String) : String :=
  String.mk ('s' :: 'c' :: '-' :: encChars css.data)

theorem unesc_escCode (c : Char) (h : needsEsc c = true) : unesc (escCode c) = c := by
  simp only [needsEsc, isWsChar, isMarkupSpecial, Bool.or_eq_true, beq_iff_eq] at h
  casesm* _ ∨ _
  all_goals subst_vars
  all_goals decide

theorem escChar_ne_nil (c : Char) : escChar c ≠ [] := by
  unfold escChar; split <;> simp

theorem encChars_eq_nil {l : List Char} (h : encChars l = []) : l = [] := by
  cases l with
  | nil => rfl
  | cons c t =>
    exfalso
    simp only [encChars] at h
    rcases List.append_eq_nil.mp h with ⟨h1, _⟩
    exact escChar_ne_nil c h1

theorem perc_needsEsc : needsEsc '%' = true := by decide

theorem decChars_encChars : ∀ l : List Char, decChars (encChars l) = l := by
  intro l
  induction l with
  | nil => rfl
  | cons c t ih =>
    by_cases h : needsEsc c = true
    · have henc : encChars (c :: t) = '%' :: escCode c :: encChars t := by
        simp [encChars, escChar, h]
      rw [henc]
      simp only [decChars, beq_self_eq_true, if_true]
      rw [unesc_escCode c h, ih]
    · have hne : c ≠ '%' := by
        intro hc; rw [hc] at h; exact h perc_needsEsc
      have henc : encChars (c :: t) = c :: encChars t := by
        simp [encChars, escChar, h]
      rw [henc]
      cases he : encChars t with
      | nil =>
        have ht : t = [] := encChars_eq_nil he
        simp [decChars, hne, ht]
      | cons d r =>
        have : decChars (c :: d :: r) = c :: decChars (d :: r) := by
          simp [decChars, hne]
        rw [this, ← he, ih]

theorem encChars_inj {l1 l2 : List Char} (h : encChars l1 = encChars l2) : l1 = l2 := by
  rw [← decChars_encChars l1, h, decChars_encChars]

theorem strData_inj {s t : String} (h : s.data = t.data) : s = t := by
  cases s; cases t; exact congrArg String.mk (by simpa using h)

theorem hashTok_inj {s t : String} (h : hashTok s = hashTok t) : s = t := by
  have hd := congrArg String.data h
  simp only [hashTok, List.cons.injEq] at hd
  exact strData_inj (encChars_inj hd.2.2.2)

theorem escCode_safe (c : Char) :
    isWsChar (escCode c) = false ∧ isMarkupSpecial (escCode c) = false := by
  unfold escCode
  repeat' split
  all_goals decide

theorem encChars_safe :
    ∀ (l : List Char) (c : Char), c ∈ encChars l →
      isWsChar c = false ∧ isMarkupSpecial c = false := by
  intro l
  induction l with
  | nil => intro c hc; simp [encChars] at hc
  | cons h t ih =>
    intro c hc
    simp only [encChars, List.mem_append] at hc
    rcases hc with hc | hc
    · by_cases hesc : needsEsc h = true
      · simp only [escChar, hesc, if_true, List.mem_cons, List.mem_singleton] at hc
        rcases hc with hc | hc | hc
        · subst hc; decide
        · subst hc; exact escCode_safe h
        · simp at hc
      · rw [Bool.not_eq_true] at hesc
        simp only [escChar, hesc, Bool.false_eq_true, if_false, List.mem_singleton] at hc
        subst hc
        simp only [needsEsc, Bool.or_eq_false_iff] at hesc
        exact ⟨hesc.1.1, hesc.1.2⟩
    · exact ih c hc

theorem hashTok_safe (s : String) (c : Char) (hc : c ∈ (hashTok s).data) :
    isWsChar c = false ∧ attrLegal c = true := by
  simp only [hashTok, List.mem_cons] at hc
  have hsafe : isWsChar c = false ∧ isMarkupSpecial c = false := by
    rcases hc with hc | hc | hc | hc
    · subst hc; decide
    · subst hc; decide
    · subst hc; decide
    · exact encChars_safe s.data c hc
  refine ⟨hsafe.1, ?_⟩
  simp [attrLegal, hsafe.1, hsafe.2]

/-! ### String helpers -/

theorem strData_append (s t : String) : (s ++ t).data = s.data ++ t.data := by
  cases s; cases t; rfl

theorem strAppend_assoc (s t u : String) : (s ++ t) ++ u = s ++ (t ++ u) :=
  strData_inj (by simp [strData_append, List.append_assoc])

theorem strEmpty_append (s : String) : "" ++ s = s :=
  strData_inj (by simp [strData_append])

theorem strAppend_empty (s : String) : s ++ "" = s :=
  strData_inj (by simp [strData_append])

/-- Concatenation of a list of strings, in list order. -/
def strJoin : List String → String
  | [] => ""
  | s :: rest => s ++ strJoin rest

/-- `r` occurs as contiguous text inside `s`. -/
def strContains (s r : String) : Prop := ∃ p q : String, s = p ++ (r ++ q)

theorem strContains_appendLeft {t r : String} (s : String) (h : strContains t r) :
    strContains (s ++ t) r := by
  obtain ⟨p, q, hpq⟩ := h
  exact ⟨s ++ p, q, by rw [hpq, strAppend_assoc]⟩

theorem strContains_appendRight {s r : String} (t : String) (h : strContains s r) :
    strContains (s ++ t) r := by
  obtain ⟨p, q, hpq⟩ := h
  exact ⟨p, q ++ t, by rw [hpq, strAppend_assoc, strAppend_assoc]⟩

theorem strContains_refl (s : String) : strContains s s :=
  ⟨"", "", by rw [strAppend_empty, strEmpty_append]⟩

theorem strJoin_contains {r : String} {rs : List String} (h : r ∈ rs) :
    strContains (strJoin rs) r := by
  induction rs with
  | nil => simp at h
  | cons a t ih =>
    rcases List.mem_cons.mp h with h | h
    · subst h
      exact ⟨"", strJoin t, (strEmpty_append _).symm⟩
    · exact strContains_appendLeft a (ih h)

theorem strContains_trans {s t r : String} (h1 : strContains s t) (h2 : strContains t r) :
    strContains s r := by
  obtain ⟨p, q, hpq⟩ := h1
  obtain ⟨p', q', hpq'⟩ := h2
  refine ⟨p ++ p', q' ++ q, ?_⟩
  rw [hpq, hpq', strAppend_assoc, strAppend_assoc, strAppend_assoc]

/-! ### Group identifier allocator (spec §4.1)

Modelled from the spec: `allocate(stableKey)` returns the existing id when
the key was seen in this allocator's lifetime, else assigns `nextId++` and
records the mapping; `reset()` clears all mappings and restores the counter
to its initial value. -/

structure Allocator where
  mapping : List (String × Nat)
  nextId : Nat
deriving DecidableEq

/-- The initial allocator state: no mappings, counter at its initial value. -/
def Allocator.empty : Allocator := ⟨[], 0⟩

/-- First-match lookup of a stable key in the mapping list. -/
def findKey : List (String × Nat) → String → Option Nat
  | [], _ => none
  | (k, v) :: rest, s => if k = s then some v else findKey rest s

/-- Modelled from the spec: §4.1 `allocate(stableKey) -> groupId`. -/
def allocate (a : Allocator) (k : String) : Nat × Allocator :=
  match findKey a.mapping k with
  | some i => (i, a)
  | none => (a.nextId, ⟨a.mapping ++ [(k, a.nextId)], a.nextId + 1⟩)

/-- Modelled from the spec: §4.1 `reset()` clears all mappings and resets
the counter to its initial value. -/
def Allocator.reset (_ : Allocator) : Allocator := Allocator.empty

/-! ### StyleSheet (spec §4.3, §3)

Modelled from the spec: per group id, the insertion-ordered list of that
group's rules (the group's logical range); a names registry mapping
(group id, rule text) to the already-minted name; a counter for minting
fresh names. The physical Tag partitioning (§4.2) is transparent to every
caller by §4.2/§7, so the logical range list is the faithful observable
state. -/

inductive SheetError where
  | unknownGroup (g : Nat)
deriving DecidableEq

structure StyleSheet where
  groups : List (Nat × List String)
  names : List ((Nat × String) × String)
  nameCtr : Nat
deriving DecidableEq

/-- The empty sheet: no groups, no minted names. -/
def emptySheet : StyleSheet := ⟨[], [], 0⟩

/-- First-match lookup of a group id's rule list. -/
def findGroup : List (Nat × List String) → Nat → Option (List String)
  | [], _ => none
  | (k, rs) :: rest, g => if k = g then some rs else findGroup rest g

/-- Replace a group's rule list (appending the group if absent). -/
def setGroup : List (Nat × List String) → Nat → List String → List (Nat × List String)
  | [], g, rs => [(g, rs)]
  | (k, old) :: rest, g, rs =>
    if k = g then (k, rs) :: rest else (k, old) :: setGroup rest g rs

/-- Modelled from the spec: §4.3 `registerGroup(groupId)` — idempotent,
ensures a zero-length range exists for the id if absent. -/
def registerGroup (sh : StyleSheet) (g : Nat) : StyleSheet :=
  match findGroup sh.groups g with
  | some _ => sh
  | none => { sh with groups := sh.groups ++ [(g, [])] }

/-- First-match lookup in the names registry, keyed by the composite
(group id, rule text) pair. -/
def findName : List ((Nat × String) × String) → Nat → String → Option String
  | [], _, _ => none
  | ((k, txt), nm) :: rest, g, r =>
    if k = g ∧ txt = r then some nm else findName rest g r

/-- Mint a fresh generated class/selector name from the counter. -/
def mintName (n : Nat) : String := "sc-name-" ++ Nat.repr n

/-- Modelled from the spec: §4.3 `addRule(groupId, ruleText, {static})`.
If static and an identical (groupId, ruleText) pair already has a minted
name, returns the existing name without inserting; otherwise inserts at the
end of the group's current range and, for static rules only, records the
new name (dynamic rule text is never entered into the registry, §3). -/
def addRule (sh : StyleSheet) (g : Nat) (rule : String) (isStatic : Bool) :
    String × StyleSheet :=
  if isStatic then
    match findName sh.names g rule with
    | some nm => (nm, sh)
    | none =>
      let sh1 := registerGroup sh g
      let rs := (findGroup sh1.groups g).getD []
      let nm := mintName sh.nameCtr
      (nm, { groups := setGroup sh1.groups g (rs ++ [rule]),
             names := sh.names ++ [((g, rule), nm)],
             nameCtr := sh.nameCtr + 1 })
  else
    let sh1 := registerGroup sh g
    let rs := (findGroup sh1.groups g).getD []
    let nm := mintName sh.nameCtr
    (nm, { groups := setGroup sh1.groups g (rs ++ [rule]),
           names := sh.names,
           nameCtr := sh.nameCtr + 1 })

/-- Modelled from the spec: §4.3 `getGroupCSS(groupId)` — reads back exactly
the rules in the group's range in insertion order, empty string for a
registered-but-empty group, `UnknownGroup` for an id never registered. -/
def getGroupCSS (sh : StyleSheet) (g : Nat) : Except SheetError String :=
  match findGroup sh.groups g with
  | none => .error (.unknownGroup g)
  | some rs => .ok (strJoin rs)

/-! ### Server extraction engine (spec §4.5, §6)

Modelled from the spec: for each rendered element in document order, walk
its dependency chain from the most-base ancestor to itself, emitting one
style block (content `getGroupCSS`, address token `hash`) per chain entry
not yet emitted in this response. The emitted-this-response registry is
keyed by the content-derived address token: this is the deduplication
equivalence §6 makes the host apply (identical tokens collapse to one
block) and the one §4.5's cross-response note and P5 require — for
unchanged content it coincides with marking the group id, while divergent
dynamic content states of one group yield divergent tokens and are each
emitted. -/

structure Block where
  token : String
  css : String
  gid : Nat
deriving DecidableEq

/-- Walk one dependency chain (base-first), emitting blocks for entries
whose address token has not yet been emitted in this response. An
unregistered id surfaces `UnknownGroup` (§7). -/
def emitChain (sh : StyleSheet) : List Nat → List String →
    Except SheetError (List Block × List String)
  | [], em => .ok ([], em)
  | g :: rest, em =>
    match getGroupCSS sh g with
    | .error e => .error e
    | .ok css =>
      if hashTok css ∈ em then emitChain sh rest em
      else
        match emitChain sh rest (hashTok css :: em) with
        | .error e => .error e
        | .ok (bs, em2) => .ok (⟨hashTok css, css, g⟩ :: bs, em2)

/-- Process the rendered elements' chains in document order, threading the
emitted-this-response registry. -/
def extractFrom (sh : StyleSheet) : List (List Nat) → List String →
    Except SheetError (List Block × List String)
  | [], em => .ok ([], em)
  | ch :: rest, em =>
    match emitChain sh ch em with
    | .error e => .error e
    | .ok (bs, em1) =>
      match extractFrom sh rest em1 with
      | .error e => .error e
      | .ok (bs2, em2) => .ok (bs ++ bs2, em2)

/-- Modelled from the spec: §4.5 server extraction over one response,
starting from an empty emitted registry. -/
def extract (sh : StyleSheet) (elems : List (List Nat)) :
    Except SheetError (List Block × List String) :=
  extractFrom sh elems []

/-- One step of a server render pass: either the authoring layer resolves
and adds a rule (§2 data flow), or an element with its dependency chain is
rendered and its style blocks are emitted in place. -/
inductive RenderOp where
  | add (g : Nat) (rule : String) (isStatic : Bool)
  | elem (chain : List Nat)

/-- Modelled from the spec: §2/§4.5 one response's render pass — rule
insertions interleaved with element emissions, sheet state and the
emitted-this-response registry threaded through. -/
def runOps : StyleSheet → List String → List RenderOp →
    Except SheetError (List Block × StyleSheet × List String)
  | sh, em, [] => .ok ([], sh, em)
  | sh, em, .add g r st :: rest => runOps (addRule sh g r st).2 em rest
  | sh, em, .elem ch :: rest =>
    match emitChain sh ch em with
    | .error e => .error e
    | .ok (bs, em1) =>
      match runOps sh em1 rest with
      | .error e => .error e
      | .ok (bs2, sh2, em2) => .ok (bs ++ bs2, sh2, em2)

/-- In the walk order of `L`, no occurrence of `e` comes before the first
occurrence of `b` (the base-before-extended chain shape of §3). -/
def precedesIn (b e : Nat) : List Nat → Bool
  | [] => true
  | g :: rest => if g = e then false else if g = b then true else precedesIn b e rest

/-! ### Engine lemmas -/

theorem emitChain_append (sh : StyleSheet) (l1 l2 : List Nat) (em : List String) :
    emitChain sh (l1 ++ l2) em =
      match emitChain sh l1 em with
      | .error e => .error e
      | .ok (b1, e1) =>
        match emitChain sh l2 e1 with
        | .error e => .error e
        | .ok (b2, e2) => .ok (b1 ++ b2, e2) := by
  induction l1 generalizing em with
  | nil =>
    simp only [List.nil_append, emitChain]
    cases emitChain sh l2 em with
    | error e => rfl
    | ok p => obtain ⟨b2, e2⟩ := p; rfl
  | cons g t ih =>
    have hstepL : emitChain sh ((g :: t) ++ l2) em =
        match getGroupCSS sh g with
        | .error e => .error e
        | .ok css =>
          if hashTok css ∈ em then emitChain sh (t ++ l2) em
          else
            match emitChain sh (t ++ l2) (hashTok css :: em) with
            | .error e => .error e
            | .ok (bs, em2) => .ok (⟨hashTok css, css, g⟩ :: bs, em2) := rfl
    have hstepR : emitChain sh (g :: t) em =
        match getGroupCSS sh g with
        | .error e => .error e
        | .ok css =>
          if hashTok css ∈ em then emitChain sh t em
          else
            match emitChain sh t (hashTok css :: em) with
            | .error e => .error e
            | .ok (bs, em2) => .ok (⟨hashTok css, css, g⟩ :: bs, em2) := rfl
    rw [hstepL, hstepR]
    cases hg : getGroupCSS sh g with
    | error e => rfl
    | ok css =>
      dsimp only
      by_cases hm : hashTok css ∈ em
      · rw [if_pos hm, if_pos hm]
        exact ih em
      · rw [if_neg hm, if_neg hm, ih (hashTok css :: em)]
        cases emitChain sh t (hashTok css :: em) with
        | error e => rfl
        | ok p =>
          obtain ⟨b1, e1⟩ := p
          dsimp only
          cases emitChain sh l2 e1 with
          | error e => rfl
          | ok p2 => obtain ⟨b2, e2⟩ := p2; simp

theorem extractFrom_eq_flatten (sh : StyleSheet) (elems : List (List Nat)) (em : List String) :
    extractFrom sh elems em = emitChain sh elems.flatten em := by
  induction elems generalizing em with
  | nil => rfl
  | cons ch rest ih =>
    rw [List.flatten_cons, emitChain_append]
    simp only [extractFrom]
    cases emitChain sh ch em with
    | error e => rfl
    | ok p =>
      obtain ⟨b1, e1⟩ := p
      dsimp only
      rw [ih e1]

theorem emitChain_shape (sh : StyleSheet) :
    ∀ (L : List Nat) (em : List String) (bs : List Block) (em2 : List String),
      emitChain sh L em = .ok (bs, em2) → ∀ blk ∈ bs,
        getGroupCSS sh blk.gid = .ok blk.css ∧ blk.token = hashTok blk.css := by
  intro L
  induction L with
  | nil =>
    intro em bs em2 h blk hblk
    simp only [emitChain, Except.ok.injEq, Prod.mk.injEq] at h
    rw [← h.1] at hblk
    simp at hblk
  | cons g t ih =>
    intro em bs em2 h blk hblk
    simp only [emitChain] at h
    cases hg : getGroupCSS sh g with
    | error e => rw [hg] at h; simp at h
    | ok css =>
      rw [hg] at h
      dsimp only at h
      by_cases hm : hashTok css ∈ em
      · rw [if_pos hm] at h
        exact ih em bs em2 h blk hblk
      · rw [if_neg hm] at h
        cases hrec : emitChain sh t (hashTok css :: em) with
        | error e => rw [hrec] at h; simp at h
        | ok p =>
          obtain ⟨bs', em'⟩ := p
          rw [hrec] at h
          simp only [Except.ok.injEq, Prod.mk.injEq] at h
          rw [← h.1] at hblk
          rcases List.mem_cons.mp hblk with hb | hb
          · subst hb; exact ⟨hg, rfl⟩
          · exact ih _ bs' em' hrec blk hb

theorem emitChain_tokens (sh : StyleSheet) :
    ∀ (L : List Nat) (em : List String) (bs : List Block) (em2 : List String),
      emitChain sh L em = .ok (bs, em2) →
        (∀ t ∈ bs.map Block.token, t ∉ em) ∧ (bs.map Block.token).Nodup := by
  intro L
  induction L with
  | nil =>
    intro em bs em2 h
    simp only [emitChain, Except.ok.injEq, Prod.mk.injEq] at h
    rw [← h.1]
    simp
  | cons g t ih =>
    intro em bs em2 h
    simp only [emitChain] at h
    cases hg : getGroupCSS sh g with
    | error e => rw [hg] at h; simp at h
    | ok css =>
      rw [hg] at h
      dsimp only at h
      by_cases hm : hashTok css ∈ em
      · rw [if_pos hm] at h
        exact ih em bs em2 h
      · rw [if_neg hm] at h
        cases hrec : emitChain sh t (hashTok css :: em) with
        | error e => rw [hrec] at h; simp at h
        | ok p =>
          obtain ⟨bs', em'⟩ := p
          rw [hrec] at h
          simp only [Except.ok.injEq, Prod.mk.injEq] at h
          obtain ⟨hrest, hnd⟩ := ih _ bs' em' hrec
          rw [← h.1]
          constructor
          · intro tk htk
            simp only [List.map_cons, List.mem_cons] at htk
            rcases htk with htk | htk
            · rw [htk]; exact hm
            · intro hmem
              exact hrest tk htk (List.mem_cons_of_mem _ hmem)
          · simp only [List.map_cons, List.nodup_cons]
            refine ⟨?_, hnd⟩
            intro hmem
            exact hrest _ hmem (List.mem_cons_self _ _)

theorem emitChain_ok (sh : StyleSheet) :
    ∀ (L : List Nat), (∀ g ∈ L, ∃ c, getGroupCSS sh g = .ok c) →
      ∀ em, ∃ bs em2, emitChain sh L em = .ok (bs, em2) := by
  intro L
  induction L with
  | nil => intro _ em; exact ⟨[], em, rfl⟩
  | cons g t ih =>
    intro hreg em
    obtain ⟨c, hc⟩ := hreg g (List.mem_cons_self _ _)
    have hrest : ∀ g' ∈ t, ∃ c', getGroupCSS sh g' = .ok c' :=
      fun g' hg' => hreg g' (List.mem_cons_of_mem _ hg')
    by_cases hm : hashTok c ∈ em
    · obtain ⟨bs, em2, hrec⟩ := ih hrest em
      exact ⟨bs, em2, by simp only [emitChain, hc, if_pos hm]; exact hrec⟩
    · obtain ⟨bs, em2, hrec⟩ := ih hrest (hashTok c :: em)
      exact ⟨⟨hashTok c, c, g⟩ :: bs, em2,
        by simp only [emitChain, hc, if_neg hm, hrec]⟩

theorem emitChain_contains (sh : StyleSheet) :
    ∀ (L : List Nat) (em : List String) (bs : List Block) (em2 : List String)
      (g : Nat) (css : String),
      emitChain sh L em = .ok (bs, em2) → g ∈ L → getGroupCSS sh g = .ok css →
      hashTok css ∉ em → strContains (strJoin (bs.map Block.css)) css := by
  intro L
  induction L with
  | nil => intro em bs em2 g css _ hmem; simp at hmem
  | cons h t ih =>
    intro em bs em2 g css heq hmem hcss hem
    simp only [emitChain] at heq
    cases hg : getGroupCSS sh h with
    | error e => rw [hg] at heq; simp at heq
    | ok ch =>
      rw [hg] at heq
      dsimp only at heq
      by_cases hm : hashTok ch ∈ em
      · rw [if_pos hm] at heq
        rcases List.mem_cons.mp hmem with hgh | hgh
        · exfalso
          rw [hgh, hg] at hcss
          injection hcss with hch
          rw [hch] at hm
          exact hem hm
        · exact ih em bs em2 g css heq hgh hcss hem
      · rw [if_neg hm] at heq
        cases hrec : emitChain sh t (hashTok ch :: em) with
        | error e => rw [hrec] at heq; simp at heq
        | ok p =>
          obtain ⟨bs', em'⟩ := p
          rw [hrec] at heq
          simp only [Except.ok.injEq, Prod.mk.injEq] at heq
          rw [← heq.1]
          by_cases htk : hashTok css = hashTok ch
          · have : css = ch := hashTok_inj htk
            subst this
            exact ⟨"", strJoin (bs'.map Block.css), (strEmpty_append _).symm⟩
          · have hgh : g ∈ t := by
              rcases List.mem_cons.mp hmem with hgh | hgh
              · subst hgh
                rw [hcss] at hg
                injection hg with hch
                exact absurd (congrArg hashTok hch) htk
              · exact hgh
            have hem' : hashTok css ∉ hashTok ch :: em := by
              intro hmem'
              rcases List.mem_cons.mp hmem' with h' | h'
              · exact htk h'
              · exact hem h'
            exact strContains_appendLeft ch (ih _ bs' em' g css hrec hgh hcss hem')

theorem emitChain_emits (sh : StyleSheet) (e : Nat) (ce : String)
    (he : getGroupCSS sh e = .ok ce) :
    ∀ (L : List Nat) (em : List String) (bs : List Block) (em2 : List String),
      emitChain sh L em = .ok (bs, em2) → e ∈ L → hashTok ce ∉ em →
      (∀ g ∈ L, g ≠ e → getGroupCSS sh g ≠ .ok ce) →
      ∃ j : Nat, bs[j]? = some (Block.mk (hashTok ce) ce e) := by
  intro L
  induction L with
  | nil => intro em bs em2 _ hmem; simp at hmem
  | cons h t ih =>
    intro em bs em2 heq hmem hem huniq
    simp only [emitChain] at heq
    cases hg : getGroupCSS sh h with
    | error er => rw [hg] at heq; simp at heq
    | ok ch =>
      rw [hg] at heq
      dsimp only at heq
      have huniq' : ∀ g ∈ t, g ≠ e → getGroupCSS sh g ≠ .ok ce :=
        fun g hg' => huniq g (List.mem_cons_of_mem _ hg')
      by_cases hm : hashTok ch ∈ em
      · rw [if_pos hm] at heq
        have hne : h ≠ e := by
          intro hh
          rw [hh, he] at hg
          injection hg with hch
          rw [hch] at hem
          exact hem hm
        have hmem' : e ∈ t := by
          rcases List.mem_cons.mp hmem with hx | hx
          · exact absurd hx.symm hne
          · exact hx
        exact ih em bs em2 heq hmem' hem huniq'
      · rw [if_neg hm] at heq
        cases hrec : emitChain sh t (hashTok ch :: em) with
        | error er => rw [hrec] at heq; simp at heq
        | ok p =>
          obtain ⟨bs', em'⟩ := p
          rw [hrec] at heq
          simp only [Except.ok.injEq, Prod.mk.injEq] at heq
          by_cases hhe : h = e
          · have hch : ch = ce := by
              rw [hhe, he] at hg
              injection hg with hch
              exact hch.symm
            refine ⟨0, ?_⟩
            rw [← heq.1, hch, hhe]
            simp
          · have hmem' : e ∈ t := by
              rcases List.mem_cons.mp hmem with hx | hx
              · exact absurd hx.symm hhe
              · exact hx
            have hem' : hashTok ce ∉ hashTok ch :: em := by
              intro hx
              rcases List.mem_cons.mp hx with hx | hx
              · have : ce = ch := hashTok_inj hx
                exact huniq h (List.mem_cons_self _ _) hhe (this ▸ hg)
              · exact hem hx
            obtain ⟨j, hj⟩ := ih _ bs' em' hrec hmem' hem' huniq'
            refine ⟨j + 1, ?_⟩
            rw [← heq.1]
            simpa using hj

theorem precedesIn_append {b e : Nat} {l1 l2 : List Nat}
    (h1 : precedesIn b e l1 = true) (h2 : precedesIn b e l2 = true) :
    precedesIn b e (l1 ++ l2) = true := by
  induction l1 with
  | nil => simpa using h2
  | cons g t ih =>
    simp only [precedesIn, List.cons_append] at h1 ⊢
    by_cases hge : g = e
    · rw [if_pos hge] at h1; exact absurd h1 (by simp)
    · rw [if_neg hge] at h1 ⊢
      by_cases hgb : g = b
      · rw [if_pos hgb]
      · rw [if_neg hgb] at h1 ⊢
        exact ih h1

theorem precedesIn_flatten {b e : Nat} {elems : List (List Nat)}
    (h : ∀ ch ∈ elems, precedesIn b e ch = true) :
    precedesIn b e elems.flatten = true := by
  induction elems with
  | nil => rfl
  | cons ch rest ih =>
    rw [List.flatten_cons]
    exact precedesIn_append (h ch (List.mem_cons_self _ _))
      (ih fun c hc => h c (List.mem_cons_of_mem _ hc))

theorem emitChain_order (sh : StyleSheet) (b e : Nat) (cb ce : String)
    (hb : getGroupCSS sh b = .ok cb) (he : getGroupCSS sh e = .ok ce)
    (hcss : cb ≠ ce) :
    ∀ (L : List Nat) (em : List String) (bs : List Block) (em2 : List String),
      emitChain sh L em = .ok (bs, em2) →
      precedesIn b e L = true → e ∈ L →
      hashTok cb ∉ em → hashTok ce ∉ em →
      (∀ g ∈ L, g ≠ b → getGroupCSS sh g ≠ .ok cb) →
      (∀ g ∈ L, g ≠ e → getGroupCSS sh g ≠ .ok ce) →
      ∃ i j : Nat, i < j ∧ bs[i]? = some (Block.mk (hashTok cb) cb b) ∧
        bs[j]? = some (Block.mk (hashTok ce) ce e) := by
  intro L
  induction L with
  | nil => intro em bs em2 _ _ hmem; simp at hmem
  | cons g t ih =>
    intro em bs em2 heq hprec hmem hemb heme hub hue
    simp only [emitChain] at heq
    cases hg : getGroupCSS sh g with
    | error er => rw [hg] at heq; simp at heq
    | ok cg =>
      rw [hg] at heq
      dsimp only at heq
      have hub' : ∀ g' ∈ t, g' ≠ b → getGroupCSS sh g' ≠ .ok cb :=
        fun g' hg' => hub g' (List.mem_cons_of_mem _ hg')
      have hue' : ∀ g' ∈ t, g' ≠ e → getGroupCSS sh g' ≠ .ok ce :=
        fun g' hg' => hue g' (List.mem_cons_of_mem _ hg')
      have hge : g ≠ e := by
        intro hx
        rw [hx] at hprec
        simp [precedesIn] at hprec
      have hmem' : e ∈ t := by
        rcases List.mem_cons.mp hmem with hx | hx
        · exact absurd hx.symm hge
        · exact hx
      by_cases hm : hashTok cg ∈ em
      · rw [if_pos hm] at heq
        have hgb : g ≠ b := by
          intro hx
          rw [hx, hb] at hg
          injection hg with hcg
          rw [hcg] at hemb
          exact hemb hm
        have hprec' : precedesIn b e t = true := by
          simp only [precedesIn, if_neg hge, if_neg hgb] at hprec
          exact hprec
        exact ih em bs em2 heq hprec' hmem' hemb heme hub' hue'
      · rw [if_neg hm] at heq
        cases hrec : emitChain sh t (hashTok cg :: em) with
        | error er => rw [hrec] at heq; simp at heq
        | ok p =>
          obtain ⟨bs', em'⟩ := p
          rw [hrec] at heq
          simp only [Except.ok.injEq, Prod.mk.injEq] at heq
          have htkce : hashTok cg ≠ hashTok ce := by
            intro hx
            have : cg = ce := hashTok_inj hx
            exact hue g (List.mem_cons_self _ _) hge (this ▸ hg)
          have heme' : hashTok ce ∉ hashTok cg :: em := by
            intro hx
            rcases List.mem_cons.mp hx with hx | hx
            · exact htkce hx.symm
            · exact heme hx
          by_cases hgb : g = b
          · have hcg : cg = cb := by
              rw [hgb, hb] at hg
              injection hg with hx
              exact hx.symm
            obtain ⟨j, hj⟩ := emitChain_emits sh e ce he t (hashTok cg :: em) bs' em'
              hrec hmem' heme' hue'
            refine ⟨0, j + 1, by omega, ?_, ?_⟩
            · rw [← heq.1, hcg, hgb]
              simp
            · rw [← heq.1]
              simpa using hj
          · have htkcb : hashTok cg ≠ hashTok cb := by
              intro hx
              have : cg = cb := hashTok_inj hx
              exact hub g (List.mem_cons_self _ _) hgb (this ▸ hg)
            have hemb' : hashTok cb ∉ hashTok cg :: em := by
              intro hx
              rcases List.mem_cons.mp hx with hx | hx
              · exact htkcb hx.symm
              · exact hemb hx
            have hprec' : precedesIn b e t = true := by
              simp only [precedesIn, if_neg hge, if_neg hgb] at hprec
              exact hprec
            obtain ⟨i, j, hij, hi, hj⟩ :=
              ih _ bs' em' hrec hprec' hmem' hemb' heme' hub' hue'
            refine ⟨i + 1, j + 1, by omega, ?_, ?_⟩
            · rw [← heq.1]; simpa using hi
            · rw [← heq.1]; simpa using hj

theorem runOps_token :
    ∀ (ops : List RenderOp) (sh : StyleSheet) (em : List String) (bs : List Block)
      (sh2 : StyleSheet) (em2 : List String),
      runOps sh em ops = .ok (bs, sh2, em2) →
      ∀ blk ∈ bs, blk.token = hashTok blk.css := by
  intro ops
  induction ops with
  | nil =>
    intro sh em bs sh2 em2 h blk hblk
    simp only [runOps, Except.ok.injEq, Prod.mk.injEq] at h
    rw [← h.1] at hblk
    simp at hblk
  | cons op rest ih =>
    intro sh em bs sh2 em2 h blk hblk
    cases op with
    | add g r st =>
      simp only [runOps] at h
      exact ih _ _ bs sh2 em2 h blk hblk
    | elem ch =>
      simp only [runOps] at h
      cases hec : emitChain sh ch em with
      | error e => rw [hec] at h; simp at h
      | ok p =>
        obtain ⟨b1, e1⟩ := p
        rw [hec] at h
        dsimp only at h
        cases hr : runOps sh e1 rest with
        | error e => rw [hr] at h; simp at h
        | ok q =>
          obtain ⟨b2, sh2x, em2x⟩ := q
          rw [hr] at h
          simp only [Except.ok.injEq, Prod.mk.injEq] at h
          rw [← h.1] at hblk
          rcases List.mem_append.mp hblk with hb | hb
          · exact (emitChain_shape sh ch em b1 e1 hec blk hb).2
          · exact ih _ _ b2 sh2x em2x hr blk hb

theorem mem_of_getElemOpt {α : Type} {l : List α} {i : Nat} {a : α}
    (h : l[i]? = some a) : a ∈ l := by
  obtain ⟨hlt, he⟩ := List.getElem?_eq_some.mp h
  exact he ▸ List.getElem_mem hlt

theorem extract_gid_inj (sh : StyleSheet) (elems : List (List Nat))
    (bs : List Block) (em : List String) (h : extract sh elems = .ok (bs, em)) :
    ∀ (i j : Nat) (bi bj : Block), bs[i]? = some bi → bs[j]? = some bj →
      bi.gid = bj.gid → i = j := by
  rw [extract, extractFrom_eq_flatten] at h
  have hshape := emitChain_shape sh elems.flatten [] bs em h
  have htok := (emitChain_tokens sh elems.flatten [] bs em h).2
  intro i j bi bj hi hj hgid
  have hbi : bi ∈ bs := mem_of_getElemOpt hi
  have hbj : bj ∈ bs := mem_of_getElemOpt hj
  have hsi := hshape bi hbi
  have hsj := hshape bj hbj
  have hcsseq : bi.css = bj.css := by
    have hx := hsi.1
    rw [hgid, hsj.1] at hx
    injection hx with hx
    exact hx.symm
  have htokeq : bi.token = bj.token := by rw [hsi.2, hsj.2, hcsseq]
  have hmi : (bs.map Block.token)[i]? = some bi.token := by
    rw [List.getElem?_map, hi]; rfl
  have hmj : (bs.map Block.token)[j]? = some bi.token := by
    rw [List.getElem?_map, hj, htokeq]; rfl
  have hlen : i < (bs.map Block.token).length := by
    rw [List.length_map]
    exact (List.getElem?_eq_some.mp hi).1
  exact List.getElem?_inj hlen htok (hmi.trans hmj.symm)

theorem findName_append_none {l1 : List ((Nat × String) × String)}
    (l2 : List ((Nat × String) × String)) {g : Nat} {r : String}
    (h : findName l1 g r = none) :
    findName (l1 ++ l2) g r = findName l2 g r := by
  induction l1 with
  | nil => rfl
  | cons p t ih =>
    obtain ⟨⟨k, txt⟩, nm⟩ := p
    simp only [findName, List.cons_append] at h ⊢
    by_cases hk : k = g ∧ txt = r
    · rw [if_pos hk] at h; simp at h
    · rw [if_neg hk] at h ⊢
      exact ih h

theorem findKey_append_none {l1 : List (String × Nat)} (l2 : List (String × Nat))
    {k : String} (h : findKey l1 k = none) :
    findKey (l1 ++ l2) k = findKey l2 k := by
  induction l1 with
  | nil => rfl
  | cons p t ih =>
    obtain ⟨s, v⟩ := p
    simp only [findKey, List.cons_append] at h ⊢
    by_cases hk : s = k
    · rw [if_pos hk] at h; simp at h
    · rw [if_neg hk] at h ⊢
      exact ih h

theorem emitChain_cons_skip {sh : StyleSheet} {g : Nat} {L : List Nat}
    {em : List String} {css : String}
    (hg : getGroupCSS sh g = .ok css) (hm : hashTok css ∈ em) :
    emitChain sh (g :: L) em = emitChain sh L em := by
  simp [emitChain, hg, hm]

theorem emitChain_cons_emit {sh : StyleSheet} {g : Nat} {L : List Nat}
    {em : List String} {css : String}
    (hg : getGroupCSS sh g = .ok css) (hm : hashTok css ∉ em) :
    emitChain sh (g :: L) em =
      match emitChain sh L (hashTok css :: em) with
      | .error er => .error er
      | .ok (bs, em2) => .ok (Block.mk (hashTok css) css g :: bs, em2) := by
  simp [emitChain, hg, hm]

theorem hashTok_prefix (s : String) :
    hashTok s = "sc-" ++ String.mk (encChars s.data) :=
  strData_inj (by rw [strData_append]; rfl)

/-! ### Witness fixtures: concrete sheets and allocators -/

/-- A concrete sheet: three populated groups and one registered-but-empty
group, as left by a render pass over a three-level extension chain. -/
def shW : StyleSheet :=
  ⟨[(0, ["display:flex;"]), (1, ["color:red;"]), (2, ["width:200px;"]), (3, [])], [], 0⟩

/-- A concrete sheet with one minted static name in the registry. -/
def shN : StyleSheet :=
  ⟨[(0, ["display:flex;"])], [((0, "display:flex;"), "sc-name-0")], 1⟩

/-- A concrete allocator that has already allocated one key. -/
def allocW : Allocator := ⟨[("base", 0)], 1⟩

/-! ### The claims -/

/-- C1: for every style block emitted by the Server Extraction Engine — over
any render pass (any depth of extension chain, any mixture of static and
dynamic rule insertions) — the block's address token contains no whitespace
character and only characters legal inside a markup attribute value. -/
theorem claim1_token_attr_safe (sh : StyleSheet) (em : List String)
    (ops : List RenderOp) (bs : List Block) (sh2 : StyleSheet) (em2 : List String)
    (h : runOps sh em ops = .ok (bs, sh2, em2)) :
    ∀ blk ∈ bs, ∀ c ∈ blk.token.data, isWsChar c = false ∧ attrLegal c = true := by
  intro blk hblk c hc
  have ht := runOps_token ops sh em bs sh2 em2 h blk hblk
  rw [ht] at hc
  exact hashTok_safe blk.css c hc

theorem claim1_witness :
    runOps shW [] [RenderOp.elem [0]] =
      .ok ([Block.mk (hashTok (strJoin ["display:flex;"])) (strJoin ["display:flex;"]) 0],
        shW, [hashTok (strJoin ["display:flex;"])])
    ∧ ∀ blk ∈ [Block.mk (hashTok (strJoin ["display:flex;"])) (strJoin ["display:flex;"]) 0],
        ∀ c ∈ blk.token.data, isWsChar c = false ∧ attrLegal c = true :=
  ⟨rfl, claim1_token_attr_safe shW [] [RenderOp.elem [0]] _ shW _ rfl⟩

/-- C3: the content hash is a pure function of a group's CSS text, not of
its identity — two groups (or one group at two mutation states) with
byte-identical CSS text get the same token, and groups whose CSS text
differs get different tokens (collisions are absent in the model, per §7's
idealisation). -/
theorem claim3_content_hash (sh1 sh2 : StyleSheet) (g1 g2 : Nat) (c1 c2 : String)
    (h1 : getGroupCSS sh1 g1 = .ok c1) (h2 : getGroupCSS sh2 g2 = .ok c2) :
    (c1 = c2 → hashTok c1 = hashTok c2) ∧ (c1 ≠ c2 → hashTok c1 ≠ hashTok c2) :=
  ⟨fun h => congrArg hashTok h, fun hne h => hne (hashTok_inj h)⟩

theorem claim3_witness :
    getGroupCSS shW 0 = .ok (strJoin ["display:flex;"])
    ∧ getGroupCSS shW 1 = .ok (strJoin ["color:red;"])
    ∧ ((strJoin ["display:flex;"] = strJoin ["color:red;"] →
          hashTok (strJoin ["display:flex;"]) = hashTok (strJoin ["color:red;"]))
        ∧ (strJoin ["display:flex;"] ≠ strJoin ["color:red;"] →
          hashTok (strJoin ["display:flex;"]) ≠ hashTok (strJoin ["color:red;"]))) :=
  ⟨rfl, rfl, claim3_content_hash shW shW 0 1 _ _ rfl rfl⟩

/-- C7: `getGroupCSS` returns exactly the group's rules concatenated in
insertion order, the empty string for a registered-but-empty group, and
fails with `UnknownGroup` for an id never registered — the error also
surfaces (not silently recovered) through extraction. -/
theorem claim7_getGroupCSS_contract (sh : StyleSheet) (g : Nat) :
    (∀ rs, findGroup sh.groups g = some rs → getGroupCSS sh g = .ok (strJoin rs))
    ∧ (findGroup sh.groups g = some [] → getGroupCSS sh g = .ok "")
    ∧ (findGroup sh.groups g = none →
        getGroupCSS sh g = .error (.unknownGroup g)
        ∧ ∀ em, emitChain sh [g] em = .error (.unknownGroup g)) := by
  refine ⟨?_, ?_, ?_⟩
  · intro rs h
    simp [getGroupCSS, h]
  · intro h
    simp [getGroupCSS, h, strJoin]
  · intro h
    refine ⟨by simp [getGroupCSS, h], fun em => ?_⟩
    simp [emitChain, getGroupCSS, h]

theorem claim7_witness :
    getGroupCSS shW 0 = .ok (strJoin ["display:flex;"])
    ∧ getGroupCSS shW 3 = .ok ""
    ∧ getGroupCSS shW 99 = .error (.unknownGroup 99)
    ∧ emitChain shW [99] [] = .error (.unknownGroup 99) :=
  ⟨(claim7_getGroupCSS_contract shW 0).1 ["display:flex;"] rfl,
   (claim7_getGroupCSS_contract shW 3).2.1 rfl,
   ((claim7_getGroupCSS_contract shW 99).2.2 rfl).1,
   ((claim7_getGroupCSS_contract shW 99).2.2 rfl).2 []⟩

/-- C8: `allocate` returns the previously assigned id for a seen key, else
assigns the next monotonically increasing id and records the mapping (ids
are never reused within one lifetime); `reset` clears all mappings and
restores the counter, so allocation after reset is reproducible. -/
theorem claim8_allocator (a a2 : Allocator) (k : String) :
    (∀ i, findKey a.mapping k = some i → allocate a k = (i, a))
    ∧ (findKey a.mapping k = none →
        allocate a k = (a.nextId, ⟨a.mapping ++ [(k, a.nextId)], a.nextId + 1⟩)
        ∧ findKey (allocate a k).2.mapping k = some a.nextId
        ∧ ((∀ p ∈ a.mapping, p.2 < a.nextId) → ∀ p ∈ a.mapping, p.2 ≠ a.nextId))
    ∧ ((∀ p ∈ a.mapping, p.2 < a.nextId) →
        ∀ p ∈ (allocate a k).2.mapping, p.2 < (allocate a k).2.nextId)
    ∧ Allocator.reset a = Allocator.empty
    ∧ allocate (Allocator.reset a) k = allocate (Allocator.reset a2) k := by
  refine ⟨?_, ?_, ?_, rfl, rfl⟩
  · intro i h
    simp [allocate, h]
  · intro h
    refine ⟨by simp [allocate, h], ?_, ?_⟩
    · simp only [allocate, h]
      rw [findKey_append_none _ h]
      simp [findKey]
    · intro hwf p hp
      exact Nat.ne_of_lt (hwf p hp)
  · intro hwf p hp
    cases hf : findKey a.mapping k with
    | some i =>
      simp only [allocate, hf] at hp ⊢
      exact hwf p hp
    | none =>
      simp only [allocate, hf] at hp ⊢
      rcases List.mem_append.mp hp with hp | hp
      · exact Nat.lt_succ_of_lt (hwf p hp)
      · simp only [List.mem_singleton] at hp
        rw [hp]
        exact Nat.lt_succ_self _

theorem claim8_witness :
    allocate allocW "base" = (0, allocW)
    ∧ allocate allocW "ext" = (1, ⟨[("base", 0), ("ext", 1)], 2⟩)
    ∧ findKey (allocate allocW "ext").2.mapping "ext" = some 1
    ∧ allocate (Allocator.reset allocW) "fresh" =
        allocate (Allocator.reset Allocator.empty) "fresh" :=
  ⟨(claim8_allocator allocW allocW "base").1 0 rfl,
   ((claim8_allocator allocW allocW "ext").2.1 rfl).1,
   ((claim8_allocator allocW allocW "ext").2.1 rfl).2.1,
   (claim8_allocator allocW Allocator.empty "fresh").2.2.2.2⟩

/-- C9: static `addRule` is idempotent per (groupId, ruleText) pair — if an
identical static pair already has a minted name the call returns the
existing name and leaves the sheet (hence the group's rule range)
unchanged, so repeating the same static `addRule` changes nothing. -/
theorem claim9_static_idempotent (sh : StyleSheet) (g : Nat) (r : String) :
    (∀ nm, findName sh.names g r = some nm → addRule sh g r true = (nm, sh))
    ∧ addRule (addRule sh g r true).2 g r true = addRule sh g r true := by
  constructor
  · intro nm h
    simp [addRule, h]
  · cases hf : findName sh.names g r with
    | some nm => simp [addRule, hf]
    | none =>
      have hfind : findName (sh.names ++ [((g, r), mintName sh.nameCtr)]) g r =
          some (mintName sh.nameCtr) := by
        rw [findName_append_none _ hf]
        simp [findName]
      simp [addRule, hf, hfind]

theorem claim9_witness :
    findName shN.names 0 "display:flex;" = some "sc-name-0"
    ∧ addRule shN 0 "display:flex;" true = ("sc-name-0", shN)
    ∧ addRule (addRule shN 0 "display:flex;" true).2 0 "display:flex;" true =
        addRule shN 0 "display:flex;" true :=
  ⟨rfl, (claim9_static_idempotent shN 0 "display:flex;").1 "sc-name-0" rfl,
   (claim9_static_idempotent shN 0 "display:flex;").2⟩

/-- C10: every address token the Extraction Engine attaches to an emitted
style block begins with the fixed prefix `sc-`. -/
theorem claim10_token_sc_prefix (sh : StyleSheet) (em : List String)
    (ops : List RenderOp) (bs : List Block) (sh2 : StyleSheet) (em2 : List String)
    (h : runOps sh em ops = .ok (bs, sh2, em2)) :
    ∀ blk ∈ bs, ∃ rest, blk.token = "sc-" ++ rest := by
  intro blk hblk
  refine ⟨String.mk (encChars blk.css.data), ?_⟩
  rw [runOps_token ops sh em bs sh2 em2 h blk hblk]
  exact hashTok_prefix blk.css

theorem claim10_witness :
    runOps shW [] [RenderOp.elem [1]] =
      .ok ([Block.mk (hashTok (strJoin ["color:red;"])) (strJoin ["color:red;"]) 1],
        shW, [hashTok (strJoin ["color:red;"])])
    ∧ ∀ blk ∈ [Block.mk (hashTok (strJoin ["color:red;"])) (strJoin ["color:red;"]) 1],
        ∃ rest, blk.token = "sc-" ++ rest :=
  ⟨rfl, claim10_token_sc_prefix shW [] [RenderOp.elem [1]] _ shW _ rfl⟩

/-- C2: for a chain D0 → D1 → D2, rendering only an element of D2 (whose
dependency chain lists the ancestor groups base-first) produces an
extraction output whose concatenated CSS text contains every declaration
from all three groups, even though the ancestors are never rendered
standalone. -/
theorem claim2_ancestor_completeness (sh : StyleSheet) (g0 g1 g2 : Nat)
    (r0 r1 r2 : List String)
    (h0 : findGroup sh.groups g0 = some r0)
    (h1 : findGroup sh.groups g1 = some r1)
    (h2 : findGroup sh.groups g2 = some r2) :
    ∃ bs em, extract sh [[g0, g1, g2]] = .ok (bs, em) ∧
      ∀ r, (r ∈ r0 ∨ r ∈ r1 ∨ r ∈ r2) →
        strContains (strJoin (bs.map Block.css)) r := by
  have hflat : ([[g0, g1, g2]] : List (List Nat)).flatten = [g0, g1, g2] := by simp
  have hreg : ∀ g ∈ [g0, g1, g2], ∃ c, getGroupCSS sh g = .ok c := by
    intro g hg
    simp only [List.mem_cons, List.not_mem_nil, or_false] at hg
    rcases hg with h | h | h <;> subst h
    · exact ⟨strJoin r0, by simp [getGroupCSS, h0]⟩
    · exact ⟨strJoin r1, by simp [getGroupCSS, h1]⟩
    · exact ⟨strJoin r2, by simp [getGroupCSS, h2]⟩
  obtain ⟨bs, em, hok⟩ := emitChain_ok sh [g0, g1, g2] hreg []
  refine ⟨bs, em, ?_, ?_⟩
  · rw [extract, extractFrom_eq_flatten, hflat]
    exact hok
  · intro r hr
    have hcont : ∀ g rg, findGroup sh.groups g = some rg → g ∈ [g0, g1, g2] →
        strContains (strJoin (bs.map Block.css)) (strJoin rg) := by
      intro g rg hfg hmem
      exact emitChain_contains sh [g0, g1, g2] [] bs em g (strJoin rg) hok hmem
        (by simp [getGroupCSS, hfg]) (by simp)
    rcases hr with hr | hr | hr
    · exact strContains_trans (hcont g0 r0 h0 (by simp)) (strJoin_contains hr)
    · exact strContains_trans (hcont g1 r1 h1 (by simp)) (strJoin_contains hr)
    · exact strContains_trans (hcont g2 r2 h2 (by simp)) (strJoin_contains hr)

theorem claim2_witness :
    findGroup shW.groups 0 = some ["display:flex;"]
    ∧ findGroup shW.groups 1 = some ["color:red;"]
    ∧ findGroup shW.groups 2 = some ["width:200px;"]
    ∧ ∃ bs em, extract shW [[0, 1, 2]] = .ok (bs, em) ∧
        ∀ r, (r ∈ ["display:flex;"] ∨ r ∈ ["color:red;"] ∨ r ∈ ["width:200px;"]) →
          strContains (strJoin (bs.map Block.css)) r :=
  ⟨rfl, rfl, rfl,
   claim2_ancestor_completeness shW 0 1 2 _ _ _ rfl rfl rfl⟩

/-- C4: in the extraction output, for an extension pair (base b, extended e)
— every rendered chain reaching e lists b earlier, per §3 — the base
group's style block appears at a strictly smaller position than the
extended group's, for every rendered element set (no distinct rendered
group sharing either one's exact CSS text, as distinct definitions embed
distinct generated class names). -/
theorem claim4_base_before_extended (sh : StyleSheet) (elems : List (List Nat))
    (b e : Nat) (cb ce : String)
    (hb : getGroupCSS sh b = .ok cb) (he : getGroupCSS sh e = .ok ce)
    (hcss : cb ≠ ce)
    (hmem : e ∈ elems.flatten)
    (hprec : ∀ ch ∈ elems, precedesIn b e ch = true)
    (hreg : ∀ g ∈ elems.flatten, ∃ cg, getGroupCSS sh g = .ok cg)
    (hub : ∀ g ∈ elems.flatten, g ≠ b → getGroupCSS sh g ≠ .ok cb)
    (hue : ∀ g ∈ elems.flatten, g ≠ e → getGroupCSS sh g ≠ .ok ce) :
    ∃ (bs : List Block) (em : List String) (i j : Nat),
      extract sh elems = .ok (bs, em) ∧ i < j ∧
      bs[i]? = some (Block.mk (hashTok cb) cb b) ∧
      bs[j]? = some (Block.mk (hashTok ce) ce e) := by
  obtain ⟨bs, em2, hok⟩ := emitChain_ok sh elems.flatten hreg []
  obtain ⟨i, j, hij, hi, hj⟩ := emitChain_order sh b e cb ce hb he hcss
    elems.flatten [] bs em2 hok (precedesIn_flatten hprec) hmem
    (by simp) (by simp) hub hue
  exact ⟨bs, em2, i, j, by rw [extract, extractFrom_eq_flatten]; exact hok, hij, hi, hj⟩

theorem claim4_witness :
    getGroupCSS shW 0 = .ok (strJoin ["display:flex;"])
    ∧ getGroupCSS shW 1 = .ok (strJoin ["color:red;"])
    ∧ strJoin ["display:flex;"] ≠ strJoin ["color:red;"]
    ∧ (∀ ch ∈ [[0, 1]], precedesIn 0 1 ch = true)
    ∧ ∃ (bs : List Block) (em : List String) (i j : Nat),
        extract shW [[0, 1]] = .ok (bs, em) ∧ i < j ∧
        bs[i]? = some (Block.mk (hashTok (strJoin ["display:flex;"])) (strJoin ["display:flex;"]) 0) ∧
        bs[j]? = some (Block.mk (hashTok (strJoin ["color:red;"])) (strJoin ["color:red;"]) 1) :=
  ⟨rfl, rfl, by decide, by decide,
   claim4_base_before_extended shW [[0, 1]] 0 1 _ _ rfl rfl (by decide) (by decide)
     (by decide)
     (by
       intro g hg
       simp only [List.flatten, List.append_nil, List.mem_cons, List.not_mem_nil,
         or_false] at hg
       rcases hg with h | h <;> subst h
       · exact ⟨strJoin ["display:flex;"], rfl⟩
       · exact ⟨strJoin ["color:red;"], rfl⟩)
     (by
       intro g hg hne hcon
       simp only [List.flatten, List.append_nil, List.mem_cons, List.not_mem_nil,
         or_false] at hg
       rcases hg with h | h <;> subst h
       · exact hne rfl
       · injection hcon with hx
         exact absurd hx (by decide))
     (by
       intro g hg hne hcon
       simp only [List.flatten, List.append_nil, List.mem_cons, List.not_mem_nil,
         or_false] at hg
       rcases hg with h | h <;> subst h
       · injection hcon with hx
         exact absurd hx (by decide)
       · exact hne rfl)⟩

/-- C5: within one response a group id reached through several rendered
elements' chains is emitted exactly once (no two block positions carry the
same group id), and the concrete base-plus-extending render yields exactly
one style block bearing the base group's address token. -/
theorem claim5_no_duplication (sh : StyleSheet) (b e : Nat) (cb ce : String)
    (hb : getGroupCSS sh b = .ok cb) (he : getGroupCSS sh e = .ok ce)
    (hcss : cb ≠ ce) :
    (∀ elems bs em, extract sh elems = .ok (bs, em) →
      ∀ (i j : Nat) (bi bj : Block), bs[i]? = some bi → bs[j]? = some bj →
        bi.gid = bj.gid → i = j)
    ∧ ∃ em2, extract sh [[b], [b, e]] =
        .ok ([Block.mk (hashTok cb) cb b, Block.mk (hashTok ce) ce e], em2)
      ∧ List.countP (fun blk => blk.token == hashTok cb)
          [Block.mk (hashTok cb) cb b, Block.mk (hashTok ce) ce e] = 1 := by
  have hne : hashTok ce ≠ hashTok cb := fun h => hcss (hashTok_inj h).symm
  constructor
  · intro elems bs em hex
    exact extract_gid_inj sh elems bs em hex
  · refine ⟨[hashTok ce, hashTok cb], ?_, ?_⟩
    · rw [extract, extractFrom_eq_flatten]
      have hflat : ([[b], [b, e]] : List (List Nat)).flatten = [b, b, e] := by simp
      rw [hflat]
      rw [emitChain_cons_emit hb (by simp)]
      rw [emitChain_cons_skip hb (by simp)]
      rw [emitChain_cons_emit he (by simp only [List.mem_singleton]; exact hne)]
      rfl
    · simp [List.countP_cons, hne]

theorem claim5_witness :
    getGroupCSS shW 0 = .ok (strJoin ["display:flex;"])
    ∧ getGroupCSS shW 1 = .ok (strJoin ["color:red;"])
    ∧ strJoin ["display:flex;"] ≠ strJoin ["color:red;"]
    ∧ ((∀ elems bs em, extract shW elems = .ok (bs, em) →
        ∀ (i j : Nat) (bi bj : Block), bs[i]? = some bi → bs[j]? = some bj →
          bi.gid = bj.gid → i = j)
      ∧ ∃ em2, extract shW [[0], [0, 1]] =
          .ok ([Block.mk (hashTok (strJoin ["display:flex;"])) (strJoin ["display:flex;"]) 0,
                Block.mk (hashTok (strJoin ["color:red;"])) (strJoin ["color:red;"]) 1], em2)
        ∧ List.countP (fun blk => blk.token == hashTok (strJoin ["display:flex;"]))
            [Block.mk (hashTok (strJoin ["display:flex;"])) (strJoin ["display:flex;"]) 0,
             Block.mk (hashTok (strJoin ["color:red;"])) (strJoin ["color:red;"]) 1] = 1) :=
  ⟨rfl, rfl, by decide, claim5_no_duplication shW 0 1 _ _ rfl rfl (by decide)⟩

/-- C6: one dynamic definition rendered twice with different resolved prop
values — the second resolution appending its rule between the two
emissions — yields two distinct address tokens for the group's two content
states, and the concatenated output contains both resolved values. -/
theorem claim6_dynamic_divergence (b : Nat) (r1 r2 : String)
    (h2 : r2 ≠ "") (h12 : r1 ≠ r2) :
    ∃ sh2 em2,
      runOps emptySheet [] [RenderOp.add b r1 false, RenderOp.elem [b],
          RenderOp.add b r2 false, RenderOp.elem [b]] =
        .ok ([Block.mk (hashTok r1) r1 b,
              Block.mk (hashTok (r1 ++ r2)) (r1 ++ r2) b], sh2, em2)
      ∧ hashTok r1 ≠ hashTok (r1 ++ r2)
      ∧ strContains (strJoin [r1, r1 ++ r2]) r1
      ∧ strContains (strJoin [r1, r1 ++ r2]) r2 := by
  have hr : r1 ≠ r1 ++ r2 := by
    intro h
    apply h2
    have hd := congrArg String.data h
    rw [strData_append] at hd
    have hlen := congrArg List.length hd
    rw [List.length_append] at hlen
    have h0 : r2.data = [] := List.eq_nil_of_length_eq_zero (by omega)
    exact strData_inj h0
  have htk : hashTok r1 ≠ hashTok (r1 ++ r2) := fun h => hr (hashTok_inj h)
  have hA : (addRule emptySheet b r1 false).2 = (⟨[(b, [r1])], [], 1⟩ : StyleSheet) := by
    simp [addRule, emptySheet, registerGroup, findGroup, setGroup]
  have hg1 : getGroupCSS (⟨[(b, [r1])], [], 1⟩ : StyleSheet) b = .ok r1 := by
    simp [getGroupCSS, findGroup, strJoin, strAppend_empty]
  have hC : (addRule (⟨[(b, [r1])], [], 1⟩ : StyleSheet) b r2 false).2 =
      (⟨[(b, [r1, r2])], [], 2⟩ : StyleSheet) := by
    simp [addRule, registerGroup, findGroup, setGroup]
  have hg2 : getGroupCSS (⟨[(b, [r1, r2])], [], 2⟩ : StyleSheet) b = .ok (r1 ++ r2) := by
    simp [getGroupCSS, findGroup, strJoin, strAppend_empty]
  have hec1 : emitChain (⟨[(b, [r1])], [], 1⟩ : StyleSheet) [b] [] =
      .ok ([Block.mk (hashTok r1) r1 b], [hashTok r1]) := by
    rw [emitChain_cons_emit hg1 (by simp)]
    rfl
  have hec2 : emitChain (⟨[(b, [r1, r2])], [], 2⟩ : StyleSheet) [b] [hashTok r1] =
      .ok ([Block.mk (hashTok (r1 ++ r2)) (r1 ++ r2) b],
        [hashTok (r1 ++ r2), hashTok r1]) := by
    rw [emitChain_cons_emit hg2
      (by simp only [List.mem_singleton]; exact fun h => htk h.symm)]
    rfl
  refine ⟨⟨[(b, [r1, r2])], [], 2⟩, [hashTok (r1 ++ r2), hashTok r1], ?_, htk, ?_, ?_⟩
  · simp only [runOps]
    rw [hA]
    rw [hec1]
    dsimp only
    rw [hC]
    rw [hec2]
    rfl
  · refine ⟨"", (r1 ++ r2) ++ "", ?_⟩
    rw [strEmpty_append]
    rfl
  · refine ⟨r1 ++ r1, "", ?_⟩
    show r1 ++ ((r1 ++ r2) ++ "") = (r1 ++ r1) ++ (r2 ++ "")
    rw [strAppend_assoc r1 r2 "", ← strAppend_assoc r1 r1 (r2 ++ "")]

theorem claim6_witness :
    ("background:blue;" : String) ≠ ""
    ∧ ("background:red;" : String) ≠ "background:blue;"
    ∧ ∃ sh2 em2,
        runOps emptySheet [] [RenderOp.add 0 "background:red;" false, RenderOp.elem [0],
            RenderOp.add 0 "background:blue;" false, RenderOp.elem [0]] =
          .ok ([Block.mk (hashTok "background:red;") "background:red;" 0,
                Block.mk (hashTok ("background:red;" ++ "background:blue;"))
                  ("background:red;" ++ "background:blue;") 0], sh2, em2)
        ∧ hashTok "background:red;" ≠ hashTok ("background:red;" ++ "background:blue;")
        ∧ strContains (strJoin ["background:red;", "background:red;" ++ "background:blue;"])
            "background:red;"
        ∧ strContains (strJoin ["background:red;", "background:red;" ++ "background:blue;"])
            "background:blue;" :=
  ⟨by decide, by decide,
   claim6_dynamic_divergence 0 "background:red;" "background:blue;" (by decide) (by decide)⟩

end StyledSheet
